import Mathlib

/-!
Verification of the classification experiment pipeline of `app.py`
(mushroom edible/poisonous web app).

The application code delegates its data preparation, splitting and metric
computation to library calls (`LabelEncoder`, `train_test_split`,
`confusion_matrix`, `roc_curve`, `precision_recall_curve`,
`precision_score`, `recall_score`) and fixes all of their parameters as
literal constants.  This file embeds those operations as pure functions:
the constants (`test_size=0.3`, `random_state=0`, label column `"type"`,
`pos_label=1`, the sidebar widget ranges) are transcribed from `app.py`,
and the library operations are modelled from their documented semantics
(label encoding by sorted distinct values; a seed-driven permutation
partition; count-based confusion/precision/recall; threshold sweeps for
the ROC and precision-recall curves; trapezoidal AUC).
-/

namespace MushroomApp

/-! ## Lexicographic order on strings

`LabelEncoder` assigns codes by the sorted order of the distinct values of
a column (`numpy.unique` is lexicographic on strings).  We use an explicit
boolean lexicographic comparison on the underlying character lists so that
all definitions evaluate. -/

/-- Lexicographic `≤` on character lists, comparing code points. -/
def lexLe : List Char → List Char → Bool
  | [], _ => true
  | _ :: _, [] => false
  | a :: as, b :: bs =>
    if a.toNat < b.toNat then true
    else if b.toNat < a.toNat then false
    else lexLe as bs

/-- Lexicographic `≤` on strings. -/
def strLe (s t : String) : Bool := lexLe s.data t.data

/-- Insert a string into a list, keeping `strLe`-sorted lists sorted. -/
def insertStr (x : String) : List String → List String
  | [] => [x]
  | y :: ys => if strLe x y then x :: y :: ys else y :: insertStr x ys

/-- Insertion sort of strings by `strLe` (ascending). -/
def sortStr : List String → List String
  | [] => []
  | x :: xs => insertStr x (sortStr xs)

/-! ## Dataset loading and label encoding (`load_data`, app.py lines 20-26)

`load_data` reads the CSV and runs `LabelEncoder().fit_transform` on every
column.  A raw data frame is represented column-major: a list of
`(column name, string values)` pairs. -/

/-- A raw categorical data frame, column-major. -/
abbrev RawFrame : Type := List (String × List String)

/-- An encoded data frame: every value replaced by its integer code. -/
abbrev EncodedFrame : Type := List (String × List ℕ)

/-- The classes of a column: its distinct values in ascending lexicographic
order, as `numpy.unique` produces for `LabelEncoder.fit`. -/
def classesOf (col : List String) : List String := sortStr col.dedup

/-- The integer code `LabelEncoder` assigns to value `v` of a column:
its index in the sorted distinct values. -/
def encodeValue (col : List String) (v : String) : ℕ :=
  (classesOf col).indexOf v

/-- Encode one column: `LabelEncoder().fit_transform(col)`. -/
def encodeColumn (col : List String) : List ℕ :=
  col.map (encodeValue col)

/-- `load_data` (app.py lines 20-26): label-encode every column of the
source frame. -/
def load_data (src : RawFrame) : EncodedFrame :=
  src.map (fun c => (c.1, encodeColumn c.2))

/-! ## Splitter (`split`, app.py lines 28-33)

`split` calls `train_test_split(x, y, test_size=0.3, random_state=0)`.
Modelled from the spec: `train_test_split` is scikit-learn library code; per
the spec the partition is "determined solely by (seed, ratio, row count)" by
a "deterministic pseudo-random row permutation" selecting the test subset.
We realise the permutation with an explicit linear-congruential draw and a
Fisher-Yates selection; the test subset is the first `ceil(ratio * n)`
entries of the permutation and the train subset is the rest, matching
scikit-learn's test-size rounding. -/

/-- One step of a linear congruential pseudo-random generator. -/
def lcgNext (s : ℕ) : ℕ := (1103515245 * s + 12345) % 2147483648

/-- Deterministic Fisher-Yates shuffle driven by `lcgNext`: repeatedly pick
the element at pseudo-random index and recurse on the rest. -/
def shuffle (s : ℕ) (l : List ℕ) : List ℕ :=
  if h : l.length = 0 then []
  else
    let x := l.get ⟨lcgNext s % l.length, Nat.mod_lt _ (Nat.pos_of_ne_zero h)⟩
    x :: shuffle (lcgNext s) (l.erase x)
termination_by l.length
decreasing_by
  have hx : x ∈ l := l.get_mem _ _
  rw [List.length_erase_of_mem hx]
  omega

/-- Number of test rows: `ceil(ratio * n)`, scikit-learn's rounding of a
fractional `test_size`. -/
def nTestOf (ratio : ℚ) (n : ℕ) : ℕ := ⌈ratio * n⌉₊

/-- Train/test row index lists produced by a split. -/
structure SplitIdx where
  trainIdx : List ℕ
  testIdx : List ℕ
deriving DecidableEq

/-- The index partition of `train_test_split(..., test_size=ratio,
random_state=seed)` on `n` rows: permute `0..n-1` deterministically from the
seed, take the first `nTestOf ratio n` indices as test, the rest as train. -/
def splitIndices (seed : ℕ) (ratio : ℚ) (n : ℕ) : SplitIdx :=
  let perm := shuffle (lcgNext seed) (List.range n)
  ⟨perm.drop (nTestOf ratio n), perm.take (nTestOf ratio n)⟩

/-- `test_size=0.3` (app.py line 32). -/
def TEST_SIZE : ℚ := 3 / 10

/-- `random_state=0` (app.py line 32). -/
def RANDOM_STATE : ℕ := 0

/-- The label column `'type'` (app.py lines 30-31). -/
def LABEL_COLUMN : String := "type"

/-- Look up a column by name (empty when absent). -/
def getColumn (name : String) (df : EncodedFrame) : List ℕ :=
  match List.find? (fun c => c.1 == name) df with
  | some c => c.2
  | none => []

/-- Drop a column by name (`df.drop(columns=['type'])`). -/
def dropColumn (name : String) (df : EncodedFrame) : EncodedFrame :=
  List.filter (fun c => !(c.1 == name)) df

/-- Row count of a data frame: the length of its first column. -/
def nRows (df : EncodedFrame) : ℕ :=
  match df with
  | [] => 0
  | c :: _ => c.2.length

/-- Select the entries of a column at the given row indices. -/
def selectIdx (idx : List ℕ) (v : List ℕ) : List ℕ :=
  idx.filterMap (fun i => v[i]?)

/-- Select the rows of a frame at the given row indices. -/
def selectRows (idx : List ℕ) (df : EncodedFrame) : EncodedFrame :=
  df.map (fun c => (c.1, selectIdx idx c.2))

/-- Result of `split`: `x_train, x_test, y_train, y_test` plus the row index
partition that produced them. -/
structure SplitOut where
  trainIdx : List ℕ
  testIdx : List ℕ
  xTrain : EncodedFrame
  xTest : EncodedFrame
  yTrain : List ℕ
  yTest : List ℕ
deriving DecidableEq

/-- `split` (app.py lines 28-33): `y = df['type']`, `x = df.drop(columns=
['type'])`, then `train_test_split(x, y, test_size=0.3, random_state=0)`. -/
def split (df : EncodedFrame) : SplitOut :=
  let y := getColumn LABEL_COLUMN df
  let x := dropColumn LABEL_COLUMN df
  let idx := splitIndices RANDOM_STATE TEST_SIZE (nRows df)
  ⟨idx.trainIdx, idx.testIdx,
   selectRows idx.trainIdx x, selectRows idx.testIdx x,
   selectIdx idx.trainIdx y, selectIdx idx.testIdx y⟩

/-! ## Scores (`model.score`, `precision_score`, `recall_score`;
app.py lines 90-94, 108-112, 128-132)

Modelled from the spec and the scikit-learn documentation: accuracy is the
mean of the per-row correctness indicator; precision and recall use
`pos_label=1` (the code passes `pos_label=1` explicitly; the label column
encodes `"poisonous"` as 1 because `'e' < 'p'` lexicographically). -/

/-- `pos_label=1`, as passed at app.py lines 93-94, 111-112, 131-132. -/
def POS_LABEL : ℕ := 1

/-- Sum of the per-row correctness indicator, as `model.score` averages. -/
def indicatorSum : List (ℕ × ℕ) → ℕ
  | [] => 0
  | ab :: rest => (if ab.1 = ab.2 then 1 else 0) + indicatorSum rest

/-- Number of rows whose predicted label equals the true label. -/
def correctCount (yTrue yPred : List ℕ) : ℕ :=
  (yTrue.zip yPred).countP (fun ab => ab.1 == ab.2)

/-- `model.score(x_test, y_test)`: the mean correctness indicator. -/
def accuracyScore (yTrue yPred : List ℕ) : ℚ :=
  (indicatorSum (yTrue.zip yPred) : ℚ) / (yTrue.length : ℚ)

/-- True positives for `pos_label=1`. -/
def tpCount (yTrue yPred : List ℕ) : ℕ :=
  (yTrue.zip yPred).countP (fun ab => ab.1 == POS_LABEL && ab.2 == POS_LABEL)

/-- False positives for `pos_label=1`. -/
def fpCount (yTrue yPred : List ℕ) : ℕ :=
  (yTrue.zip yPred).countP (fun ab => ab.1 != POS_LABEL && ab.2 == POS_LABEL)

/-- False negatives for `pos_label=1`. -/
def fnCount (yTrue yPred : List ℕ) : ℕ :=
  (yTrue.zip yPred).countP (fun ab => ab.1 == POS_LABEL && ab.2 != POS_LABEL)

/-- True negatives for `pos_label=1`. -/
def tnCount (yTrue yPred : List ℕ) : ℕ :=
  (yTrue.zip yPred).countP (fun ab => ab.1 != POS_LABEL && ab.2 != POS_LABEL)

/-- `precision_score(y_test, y_pred, pos_label=1)`; rational division by a
zero denominator yields 0, matching scikit-learn's zero-division default. -/
def precision_score (yTrue yPred : List ℕ) : ℚ :=
  (tpCount yTrue yPred : ℚ) / ((tpCount yTrue yPred : ℚ) + (fpCount yTrue yPred : ℚ))

/-- `recall_score(y_test, y_pred, pos_label=1)`; rational division by a
zero denominator yields 0, matching scikit-learn's zero-division default. -/
def recall_score (yTrue yPred : List ℕ) : ℚ :=
  (tpCount yTrue yPred : ℚ) / ((tpCount yTrue yPred : ℚ) + (fnCount yTrue yPred : ℚ))

/-! ## Confusion matrix (app.py lines 36-42)

Modelled from the scikit-learn documentation for the binary case: entry
`(i, j)` counts rows with true class `i` and predicted class `j`, classes in
ascending code order. -/

/-- Number of rows with true class `i` and predicted class `j`. -/
def confusionCount (i j : ℕ) (yTrue yPred : List ℕ) : ℕ :=
  (yTrue.zip yPred).countP (fun ab => ab.1 == i && ab.2 == j)

/-- `confusion_matrix(y_test, y_pred)` for the binary classes `{0, 1}`. -/
def confusion_matrix (yTrue yPred : List ℕ) : List (List ℕ) :=
  [[confusionCount 0 0 yTrue yPred, confusionCount 0 1 yTrue yPred],
   [confusionCount 1 0 yTrue yPred, confusionCount 1 1 yTrue yPred]]

/-! ## ROC and precision-recall curves (app.py lines 44-69)

Modelled from the spec and the scikit-learn documentation.  `roc_curve`
sweeps the distinct scores as thresholds from highest to lowest, prefixed by
a `threshold = +∞` point at `(0, 0)`; a row is predicted positive when its
score is `≥` the threshold.  `precision_recall_curve` sweeps the distinct
scores as thresholds in ascending order and appends a final
`(recall 0, precision 1)` point.  The AUC shown by the app is
`np.trapz(tpr, fpr)` over the ROC sequence. -/

/-- Insert into a descending-sorted rational list. -/
def insertDescQ (x : ℚ) : List ℚ → List ℚ
  | [] => [x]
  | y :: ys => if y ≤ x then x :: y :: ys else y :: insertDescQ x ys

/-- Insertion sort of rationals, descending. -/
def sortDescQ : List ℚ → List ℚ
  | [] => []
  | x :: xs => insertDescQ x (sortDescQ xs)

/-- Insert into an ascending-sorted rational list. -/
def insertAscQ (x : ℚ) : List ℚ → List ℚ
  | [] => [x]
  | y :: ys => if x ≤ y then x :: y :: ys else y :: insertAscQ x ys

/-- Insertion sort of rationals, ascending. -/
def sortAscQ : List ℚ → List ℚ
  | [] => []
  | x :: xs => insertAscQ x (sortAscQ xs)

/-- Distinct score thresholds, highest to lowest. -/
def thresholdsDesc (scores : List ℚ) : List ℚ := sortDescQ scores.dedup

/-- Distinct score thresholds, lowest to highest. -/
def thresholdsAsc (scores : List ℚ) : List ℚ := sortAscQ scores.dedup

/-- Number of positive-class rows. -/
def posCount (yTrue : List ℕ) : ℕ := yTrue.countP (fun v => v == POS_LABEL)

/-- Number of negative-class rows. -/
def negCount (yTrue : List ℕ) : ℕ := yTrue.countP (fun v => v != POS_LABEL)

/-- True positives at threshold `t`: positive rows with score `≥ t`. -/
def tpAt (yTrue : List ℕ) (scores : List ℚ) (t : ℚ) : ℕ :=
  (yTrue.zip scores).countP (fun a => a.1 == POS_LABEL && decide (t ≤ a.2))

/-- False positives at threshold `t`: negative rows with score `≥ t`. -/
def fpAt (yTrue : List ℕ) (scores : List ℚ) (t : ℚ) : ℕ :=
  (yTrue.zip scores).countP (fun a => a.1 != POS_LABEL && decide (t ≤ a.2))

/-- True positive rate at threshold `t`. -/
def tprAt (yTrue : List ℕ) (scores : List ℚ) (t : ℚ) : ℚ :=
  (tpAt yTrue scores t : ℚ) / (posCount yTrue : ℚ)

/-- False positive rate at threshold `t`. -/
def fprAt (yTrue : List ℕ) (scores : List ℚ) (t : ℚ) : ℚ :=
  (fpAt yTrue scores t : ℚ) / (negCount yTrue : ℚ)

/-- Precision at threshold `t`. -/
def precAt (yTrue : List ℕ) (scores : List ℚ) (t : ℚ) : ℚ :=
  (tpAt yTrue scores t : ℚ) / ((tpAt yTrue scores t : ℚ) + (fpAt yTrue scores t : ℚ))

/-- Recall at threshold `t`. -/
def recAt (yTrue : List ℕ) (scores : List ℚ) (t : ℚ) : ℚ :=
  (tpAt yTrue scores t : ℚ) / (posCount yTrue : ℚ)

/-- `roc_curve(y_test, y_prob)` as the ordered `(fpr, tpr)` sequence:
the `threshold = +∞` point `(0, 0)` followed by one point per distinct
threshold, highest threshold first. -/
def roc_curve (yTrue : List ℕ) (scores : List ℚ) : List (ℚ × ℚ) :=
  (0, 0) :: (thresholdsDesc scores).map
    (fun t => (fprAt yTrue scores t, tprAt yTrue scores t))

/-- `np.trapz(ys, xs)` over a list of `(x, y)` points: trapezoidal
integration of `y` over `x`. -/
def trapz : List (ℚ × ℚ) → ℚ
  | (x1, y1) :: (x2, y2) :: rest =>
      (x2 - x1) * (y1 + y2) / 2 + trapz ((x2, y2) :: rest)
  | _ => 0

/-- The AUC printed by the app: `np.trapz(tpr, fpr)` over the ROC points
(app.py lines 49, 53). -/
def aucOf (yTrue : List ℕ) (scores : List ℚ) : ℚ :=
  trapz (roc_curve yTrue scores)

/-- `precision_recall_curve(y_test, y_prob)` as the ordered
`(recall, precision)` sequence plotted by the app: one point per distinct
threshold, lowest threshold first, with the final `(0, 1)` point appended. -/
def precision_recall_curve (yTrue : List ℕ) (scores : List ℚ) : List (ℚ × ℚ) :=
  ((thresholdsAsc scores).map
    (fun t => (recAt yTrue scores t, precAt yTrue scores t))) ++ [(0, 1)]

/-! ## Classifier configuration (app.py lines 78-133)

The sidebar widgets constrain every hyperparameter to a range before the
`Classify` button constructs a model: `C ∈ [0.01, 10.0]` (number inputs at
lines 80, 99), `max_iter ∈ [100, 500]` (slider at line 100),
`n_estimators ∈ [100, 5000]` and `max_depth ∈ [1, 20]` (sliders at lines
117-118), and the radio buttons only offer `rbf`/`linear`, `scale`/`auto`
and `True`/`False`.  Modelled from the spec: the validation these widgets
enforce is expressed as a checked construction step that fails with
`InvalidHyperparameterError` before any model exists. -/

/-- Error taxonomy of the pipeline. -/
inductive PipelineError where
  | invalidHyperparameterError
  | invalidSplitError
  | dataFormatError
  | trainingError
deriving DecidableEq

/-- SVM hyperparameters (app.py lines 80-82). -/
structure SvmParams where
  C : ℚ
  kernel : String
  gamma : String
deriving DecidableEq

/-- Logistic-regression hyperparameters (app.py lines 99-100). -/
structure LrParams where
  C : ℚ
  maxIter : ℕ
deriving DecidableEq

/-- Random-forest hyperparameters (app.py lines 117-120). -/
structure RfParams where
  nEstimators : ℕ
  maxDepth : ℕ
  bootstrap : Bool
deriving DecidableEq

/-- A classifier kind together with its typed hyperparameter bag. -/
inductive Hyperparams where
  | svm (p : SvmParams)
  | lr (p : LrParams)
  | rf (p : RfParams)
deriving DecidableEq

/-- The widget ranges of app.py: `C ∈ [0.01, 10.0]`, kernel/gamma restricted
to the offered radio choices, `max_iter ∈ [100, 500]`,
`n_estimators ∈ [100, 5000]`, `max_depth ∈ [1, 20]`. -/
def validHyperparams : Hyperparams → Bool
  | .svm p =>
      (decide (1 / 100 ≤ p.C) && decide (p.C ≤ 10)) &&
      (p.kernel == "rbf" || p.kernel == "linear") &&
      (p.gamma == "scale" || p.gamma == "auto")
  | .lr p =>
      (decide (1 / 100 ≤ p.C) && decide (p.C ≤ 10)) &&
      (100 ≤ p.maxIter && p.maxIter ≤ 500)
  | .rf p =>
      (100 ≤ p.nEstimators && p.nEstimators ≤ 5000) &&
      (1 ≤ p.maxDepth && p.maxDepth ≤ 20)

/-- Whether the library classifier of this kind draws internal randomness
while fitting: `SVC(probability=True)` runs a randomised Platt-scaling
cross-validation, and `RandomForestClassifier` randomises bootstrap samples
and feature subsets; `LogisticRegression` with the default solver is
deterministic. -/
def hasInternalRandomness : Hyperparams → Bool
  | .svm _ => true
  | .lr _ => false
  | .rf _ => true

/-- A constructed (untrained) model: the hyperparameter bag plus the
`random_state` passed to the library constructor.  The constructor calls at
app.py lines 88, 106 and 126 pass no `random_state`, so it is `none` for
every kind. -/
structure ModelConfig where
  params : Hyperparams
  randomState : Option ℕ
deriving DecidableEq

/-- Construct the model exactly as app.py does: `SVC(C=C, kernel=kernel,
gamma=gamma, probability=True)`, `LogisticRegression(C=C,
max_iter=max_iter)`, `RandomForestClassifier(n_estimators=n_estimators,
max_depth=max_depth, bootstrap=bootstrap, n_jobs=-1)` — none of the three
constructor calls sets `random_state`. -/
def constructModel (h : Hyperparams) : ModelConfig :=
  { params := h, randomState := none }

/-- `build(kind, hyperparams)`: validate the hyperparameter bag against the
widget ranges, then construct; out-of-range values fail with
`InvalidHyperparameterError` and no model is created. -/
def build (h : Hyperparams) : Except PipelineError ModelConfig :=
  if validHyperparams h then .ok (constructModel h) else
    .error .invalidHyperparameterError

/-- The seed the library actually fits with: the model's `random_state` if
set, otherwise a draw from the environment's global generator. -/
def effectiveSeed (c : ModelConfig) (envSeed : ℕ) : ℕ :=
  c.randomState.getD envSeed

/-- Modelled from the spec: `fit` as a function of the model configuration,
the training data, and the environment RNG state.  The spec requires fit to
be reproducible from `(kind, hyperparams, train_features, train_labels)`
alone; the library's fitted model additionally depends on the effective seed
whenever the classifier has internal randomness, which this record makes
explicit. -/
def fitOutcome (c : ModelConfig) (xTrain : EncodedFrame) (yTrain : List ℕ)
    (envSeed : ℕ) : ModelConfig × EncodedFrame × List ℕ × ℕ :=
  (c, xTrain, yTrain,
   if hasInternalRandomness c.params then effectiveSeed c envSeed else 0)

/-- The user-controlled inputs of one session of `main`: the classifier
choice with its hyperparameter bag, the metrics multiselect, and the
raw-data checkbox. -/
structure UserInput where
  classifierChoice : String
  hyper : Hyperparams
  metricsSel : List String
  showRawData : Bool

/-- The train/test partition every branch of `main` uses: `df = load_data()`
then `split(df)` (app.py lines 71-72), computed before and independently of
any user input. -/
def usedPartition (src : RawFrame) (_ui : UserInput) : SplitOut :=
  split (load_data src)

/-! ## Order lemmas for the lexicographic comparison -/

theorem char_eq_of_toNat_eq {c d : Char} (h : c.toNat = d.toNat) : c = d :=
  Char.ext (UInt32.toNat.inj h)

theorem lexLe_total : ∀ as bs : List Char, lexLe as bs = true ∨ lexLe bs as = true
  | [], _ => Or.inl rfl
  | _ :: _, [] => Or.inr rfl
  | a :: as, b :: bs => by
    rcases Nat.lt_trichotomy a.toNat b.toNat with h | h | h
    · left; simp [lexLe, h]
    · rcases lexLe_total as bs with h' | h'
      · left; simp [lexLe, h, h']
      · right; simp [lexLe, h.symm, h']
    · right; simp [lexLe, h]

theorem lexLe_trans : ∀ as bs cs : List Char,
    lexLe as bs = true → lexLe bs cs = true → lexLe as cs = true
  | [], _, _ => by intros; rfl
  | _ :: _, [], _ => by intro h _; simp [lexLe] at h
  | _ :: _, _ :: _, [] => by intro _ h; simp [lexLe] at h
  | a :: as, b :: bs, c :: cs => by
    intro h1 h2
    rcases Nat.lt_trichotomy a.toNat b.toNat with hab | hab | hab <;>
      rcases Nat.lt_trichotomy b.toNat c.toNat with hbc | hbc | hbc <;>
      simp only [lexLe] at h1 h2 ⊢ <;>
      first
        | (split_ifs with g1 g2 <;> first | rfl | omega)
        | (split_ifs at h1 h2 ⊢ with g1 g2 g3 g4 <;>
            first
              | rfl
              | omega
              | exact h1
              | exact h2
              | exact lexLe_trans as bs cs h1 h2)

theorem lexLe_antisymm : ∀ as bs : List Char,
    lexLe as bs = true → lexLe bs as = true → as = bs
  | [], [] => by intros; rfl
  | [], _ :: _ => by intro _ h; simp [lexLe] at h
  | _ :: _, [] => by intro h _; simp [lexLe] at h
  | a :: as, b :: bs => by
    intro h1 h2
    rcases Nat.lt_trichotomy a.toNat b.toNat with hab | hab | hab
    · simp [lexLe, hab] at h2
      omega
    · have : a = b := char_eq_of_toNat_eq hab
      subst this
      simp only [lexLe, lt_irrefl, if_false] at h1 h2
      rw [lexLe_antisymm as bs h1 h2]
    · simp [lexLe, hab] at h1
      omega

theorem strLe_total (s t : String) : strLe s t = true ∨ strLe t s = true :=
  lexLe_total s.data t.data

theorem strLe_trans {s t u : String} (h1 : strLe s t = true)
    (h2 : strLe t u = true) : strLe s u = true :=
  lexLe_trans s.data t.data u.data h1 h2

theorem strLe_antisymm (s t : String) (h1 : strLe s t = true)
    (h2 : strLe t s = true) : s = t := by
  have h : s.data = t.data := lexLe_antisymm s.data t.data h1 h2
  cases s; cases t
  exact congrArg String.mk h

/-! ## Sorting lemmas -/

theorem insertStr_perm (x : String) :
    ∀ l : List String, (insertStr x l).Perm (x :: l)
  | [] => .refl _
  | y :: ys => by
    rw [insertStr]
    split
    · exact .refl _
    · exact ((insertStr_perm x ys).cons y).trans (List.Perm.swap x y ys)

theorem sortStr_perm : ∀ l : List String, (sortStr l).Perm l
  | [] => .refl _
  | x :: xs => by
    rw [sortStr]
    exact (insertStr_perm x (sortStr xs)).trans ((sortStr_perm xs).cons x)

theorem insertStr_pairwise (x : String) (l : List String)
    (h : l.Pairwise (fun a b => strLe a b = true)) :
    (insertStr x l).Pairwise (fun a b => strLe a b = true) := by
  induction l with
  | nil => simp [insertStr]
  | cons y ys ih =>
    rw [List.pairwise_cons] at h
    obtain ⟨hy, hys⟩ := h
    rw [insertStr]
    split
    · rename_i hxy
      rw [List.pairwise_cons]
      refine ⟨fun b hb => ?_, List.pairwise_cons.mpr ⟨hy, hys⟩⟩
      rcases List.mem_cons.mp hb with rfl | hb'
      · exact hxy
      · exact strLe_trans hxy (hy b hb')
    · rename_i hxy
      rw [List.pairwise_cons]
      refine ⟨fun b hb => ?_, ih hys⟩
      have hmem : b ∈ x :: ys := (insertStr_perm x ys).subset hb
      rcases List.mem_cons.mp hmem with rfl | hb'
      · rcases strLe_total y b with h1 | h1
        · exact h1
        · exact absurd h1 hxy
      · exact hy b hb'

theorem sortStr_pairwise : ∀ l : List String,
    (sortStr l).Pairwise (fun a b => strLe a b = true)
  | [] => List.Pairwise.nil
  | x :: xs => insertStr_pairwise x (sortStr xs) (sortStr_pairwise xs)

theorem sorted_str_eq_of_perm : ∀ {l1 l2 : List String},
    l1.Pairwise (fun a b => strLe a b = true) →
    l2.Pairwise (fun a b => strLe a b = true) → l1.Perm l2 → l1 = l2
  | [], [], _, _, _ => rfl
  | [], _ :: _, _, _, p => by have := p.length_eq; simp at this
  | _ :: _, [], _, _, p => by have := p.length_eq; simp at this
  | a :: as, b :: bs, h1, h2, p => by
    rw [List.pairwise_cons] at h1 h2
    have hab : a = b := by
      have ha2 : a ∈ b :: bs := p.subset (List.mem_cons_self a as)
      have hb1 : b ∈ a :: as := p.symm.subset (List.mem_cons_self b bs)
      rcases List.mem_cons.mp ha2 with h | h
      · exact h
      · rcases List.mem_cons.mp hb1 with h' | h'
        · exact h'.symm
        · exact strLe_antisymm a b (h1.1 b h') (h2.1 a h)
    subst hab
    rw [sorted_str_eq_of_perm h1.2 h2.2 p.cons_inv]

/-! ## Encoding lemmas -/

theorem classesOf_eq_of_toFinset_eq {c d : List String}
    (h : c.toFinset = d.toFinset) : classesOf c = classesOf d := by
  have hperm : c.dedup.Perm d.dedup := by
    refine List.perm_of_nodup_nodup_toFinset_eq (List.nodup_dedup c)
      (List.nodup_dedup d) ?_
    ext a
    have := Finset.ext_iff.mp h a
    simpa using this
  exact sorted_str_eq_of_perm (sortStr_pairwise c.dedup) (sortStr_pairwise d.dedup)
    ((sortStr_perm c.dedup).trans (hperm.trans (sortStr_perm d.dedup).symm))

theorem encodeValue_eq_of_toFinset_eq {c d : List String}
    (h : c.toFinset = d.toFinset) (v : String) :
    encodeValue c v = encodeValue d v := by
  unfold encodeValue
  rw [classesOf_eq_of_toFinset_eq h]

/-- C7: applying `load_and_encode` twice to the same source yields identical
encoded datasets, and each column's codes are assigned by a deterministic
per-column function of the column's set of distinct values: any two columns
with the same distinct values receive the same code assignment. -/
theorem load_and_encode_deterministic :
    (∀ src : RawFrame, load_data src = load_data src) ∧
    (∀ c d : List String, c.toFinset = d.toFinset →
      ∀ v : String, encodeValue c v = encodeValue d v) :=
  ⟨fun _ => rfl, fun _ _ h v => encodeValue_eq_of_toFinset_eq h v⟩

/-- Witness for C7 at a concrete pair of columns with equal distinct-value
sets. -/
theorem load_and_encode_deterministic_witness :
    (["a", "b", "b"] : List String).toFinset =
      (["b", "a"] : List String).toFinset ∧
    encodeValue ["a", "b", "b"] "b" = encodeValue ["b", "a"] "b" :=
  ⟨by decide, load_and_encode_deterministic.2 ["a", "b", "b"] ["b", "a"]
    (by decide) "b"⟩

/-! ## Split lemmas -/

theorem shuffle_perm (s : ℕ) (l : List ℕ) : (shuffle s l).Perm l := by
  induction s, l using shuffle.induct with
  | case1 s l h => rw [shuffle, dif_pos h]; rw [List.length_eq_zero.mp h]
  | case2 s l h x ih =>
    rw [shuffle, dif_neg h]
    exact (ih.cons x).trans (List.perm_cons_erase (l.get_mem _ _)).symm

theorem splitIndices_append_perm (seed : ℕ) (ratio : ℚ) (n : ℕ) :
    ((splitIndices seed ratio n).trainIdx ++
      (splitIndices seed ratio n).testIdx).Perm (List.range n) := by
  unfold splitIndices
  refine List.perm_append_comm.trans ?_
  rw [List.take_append_drop]
  exact shuffle_perm _ _

theorem splitIndices_nodup (seed : ℕ) (n : ℕ) :
    (shuffle (lcgNext seed) (List.range n)).Nodup :=
  (shuffle_perm (lcgNext seed) (List.range n)).symm.nodup (List.nodup_range n)

/-- C1: for every fixed `(seed, ratio)` and row count, the split is
deterministic (identical arguments give identical index lists), and the
train/test index lists partition the row indices: an index is in the train
or test part exactly when it is a row index, and no index is in both. -/
theorem split_partitions (seed : ℕ) (ratio : ℚ) (n : ℕ) :
    splitIndices seed ratio n = splitIndices seed ratio n ∧
    (∀ i : ℕ, (i ∈ (splitIndices seed ratio n).trainIdx ∨
        i ∈ (splitIndices seed ratio n).testIdx) ↔ i < n) ∧
    (∀ i : ℕ, i ∈ (splitIndices seed ratio n).trainIdx →
      i ∉ (splitIndices seed ratio n).testIdx) := by
  refine ⟨rfl, ?_, ?_⟩
  · intro i
    have hperm := splitIndices_append_perm seed ratio n
    rw [← List.mem_range (n := n), ← hperm.mem_iff, List.mem_append]
  · intro i htrain htest
    have hnd := splitIndices_nodup seed n
    have hdisj := List.disjoint_take_drop hnd
      (le_refl (nTestOf ratio n))
    exact hdisj htest htrain

/-- C2: on the 8124-row mushroom dataset, the 70/30 split with seed 0
produces exactly 2438 test rows and 5686 train rows, identically on every
repeated run. -/
theorem split_counts_8124 (df : EncodedFrame) (h : nRows df = 8124) :
    (split df).testIdx.length = 2438 ∧
    (split df).trainIdx.length = 5686 ∧
    split df = split df := by
  have hlen : (shuffle (lcgNext RANDOM_STATE) (List.range (nRows df))).length =
      8124 := by
    rw [(shuffle_perm _ _).length_eq, List.length_range, h]
  have hcl : nTestOf TEST_SIZE (nRows df) = 2438 := by
    rw [h]
    unfold nTestOf TEST_SIZE
    rw [Nat.ceil_eq_iff (by norm_num)]
    norm_num
  refine ⟨?_, ?_, rfl⟩
  · show ((shuffle (lcgNext RANDOM_STATE) (List.range (nRows df))).take
      (nTestOf TEST_SIZE (nRows df))).length = 2438
    rw [List.length_take, hlen, hcl]
    omega
  · show ((shuffle (lcgNext RANDOM_STATE) (List.range (nRows df))).drop
      (nTestOf TEST_SIZE (nRows df))).length = 5686
    rw [List.length_drop, hlen, hcl]

/-- Witness for C2 at a concrete 8124-row frame. -/
theorem split_counts_8124_witness :
    nRows [("type", List.replicate 8124 0)] = 8124 ∧
    (split [("type", List.replicate 8124 0)]).testIdx.length = 2438 := by
  have h : nRows [("type", List.replicate 8124 0)] = 8124 := by
    show (List.replicate 8124 (0 : ℕ)).length = 8124
    rw [List.length_replicate]
  exact ⟨h, (split_counts_8124 _ h).1⟩

/-- Witness for C1 at a concrete split: row index 0 lands in one of the two
parts of the 2-row split. -/
theorem split_partitions_witness :
    0 ∈ (splitIndices 0 (1 / 2) 2).trainIdx ∨
      0 ∈ (splitIndices 0 (1 / 2) 2).testIdx :=
  ((split_partitions 0 (1 / 2) 2).2.1 0).mpr (by norm_num)

/-! ## Score lemmas -/

theorem indicatorSum_eq_countP : ∀ l : List (ℕ × ℕ),
    indicatorSum l = l.countP (fun ab => ab.1 == ab.2)
  | [] => rfl
  | ab :: rest => by
    rw [indicatorSum, List.countP_cons, indicatorSum_eq_countP rest]
    by_cases h : ab.1 = ab.2 <;> simp [h] <;> omega

/-- C3: accuracy is the fraction of test rows with correct predicted label;
precision is `TP/(TP+FP)` and recall is `TP/(TP+FN)` with positive label 1,
each equal to 0 when its denominator is 0; and the positive label 1 is the
code of `"poisonous"` for any label column whose distinct values are
`edible`/`poisonous`. -/
theorem evaluate_scores (yTrue yPred : List ℕ) :
    accuracyScore yTrue yPred =
      (correctCount yTrue yPred : ℚ) / (yTrue.length : ℚ) ∧
    precision_score yTrue yPred =
      (if tpCount yTrue yPred + fpCount yTrue yPred = 0 then 0
       else (tpCount yTrue yPred : ℚ) /
         ((tpCount yTrue yPred : ℚ) + (fpCount yTrue yPred : ℚ))) ∧
    recall_score yTrue yPred =
      (if tpCount yTrue yPred + fnCount yTrue yPred = 0 then 0
       else (tpCount yTrue yPred : ℚ) /
         ((tpCount yTrue yPred : ℚ) + (fnCount yTrue yPred : ℚ))) ∧
    (∀ col : List String,
      col.toFinset = (["edible", "poisonous"] : List String).toFinset →
      encodeValue col "poisonous" = POS_LABEL) := by
  refine ⟨?_, ?_, ?_, ?_⟩
  · unfold accuracyScore correctCount
    rw [indicatorSum_eq_countP]
  · split
    · rename_i h
      obtain ⟨h1, h2⟩ := Nat.add_eq_zero.mp h
      simp [precision_score, h1, h2]
    · rfl
  · split
    · rename_i h
      obtain ⟨h1, h2⟩ := Nat.add_eq_zero.mp h
      simp [recall_score, h1, h2]
    · rfl
  · intro col hcol
    rw [encodeValue_eq_of_toFinset_eq hcol "poisonous"]
    decide

/-- Witness for C3 at a concrete label column with distinct values
`edible`/`poisonous`. -/
theorem evaluate_scores_witness :
    (["poisonous", "edible"] : List String).toFinset =
      (["edible", "poisonous"] : List String).toFinset ∧
    encodeValue ["poisonous", "edible"] "poisonous" = POS_LABEL :=
  ⟨by decide,
   (evaluate_scores [] []).2.2.2 ["poisonous", "edible"] (by decide)⟩

/-! ## Confusion matrix lemmas -/

theorem fourway_countP (l : List (ℕ × ℕ)) (h : ∀ ab ∈ l, ab.1 < 2 ∧ ab.2 < 2) :
    l.countP (fun ab => ab.1 == 0 && ab.2 == 0) +
      l.countP (fun ab => ab.1 == 0 && ab.2 == 1) +
      l.countP (fun ab => ab.1 == 1 && ab.2 == 0) +
      l.countP (fun ab => ab.1 == 1 && ab.2 == 1) = l.length := by
  induction l with
  | nil => rfl
  | cons ab t ih =>
    have hab := h ab (List.mem_cons_self ab t)
    have ht := ih (fun x hx => h x (List.mem_cons_of_mem ab hx))
    simp only [List.countP_cons, List.length_cons]
    have ha : ab.1 = 0 ∨ ab.1 = 1 := by omega
    have hb : ab.2 = 0 ∨ ab.2 = 1 := by omega
    rcases ha with ha | ha <;> rcases hb with hb | hb <;> simp [ha, hb] <;> omega

theorem confusionCount_eq_tn (yTrue yPred : List ℕ)
    (h1 : ∀ v ∈ yTrue, v < 2) (h2 : ∀ v ∈ yPred, v < 2) :
    confusionCount 0 0 yTrue yPred = tnCount yTrue yPred := by
  unfold confusionCount tnCount
  refine List.countP_congr (fun ab hab => ?_)
  obtain ⟨ha, hb⟩ := List.of_mem_zip hab
  have hva := h1 ab.1 ha
  have hvb := h2 ab.2 hb
  simp only [Bool.and_eq_true, beq_iff_eq, bne_iff_ne, ne_eq, POS_LABEL]
  omega

theorem confusionCount_eq_fp (yTrue yPred : List ℕ)
    (h1 : ∀ v ∈ yTrue, v < 2) (h2 : ∀ v ∈ yPred, v < 2) :
    confusionCount 0 1 yTrue yPred = fpCount yTrue yPred := by
  unfold confusionCount fpCount
  refine List.countP_congr (fun ab hab => ?_)
  obtain ⟨ha, hb⟩ := List.of_mem_zip hab
  have hva := h1 ab.1 ha
  have hvb := h2 ab.2 hb
  simp only [Bool.and_eq_true, beq_iff_eq, bne_iff_ne, ne_eq, POS_LABEL]
  omega

theorem confusionCount_eq_fn (yTrue yPred : List ℕ)
    (h1 : ∀ v ∈ yTrue, v < 2) (h2 : ∀ v ∈ yPred, v < 2) :
    confusionCount 1 0 yTrue yPred = fnCount yTrue yPred := by
  unfold confusionCount fnCount
  refine List.countP_congr (fun ab hab => ?_)
  obtain ⟨ha, hb⟩ := List.of_mem_zip hab
  have hva := h1 ab.1 ha
  have hvb := h2 ab.2 hb
  simp only [Bool.and_eq_true, beq_iff_eq, bne_iff_ne, ne_eq, POS_LABEL]
  omega

theorem confusionCount_eq_tp (yTrue yPred : List ℕ) :
    confusionCount 1 1 yTrue yPred = tpCount yTrue yPred := rfl

/-- C4: for binary labels and predictions of equal length,
`confusion_matrix` is the 2x2 matrix `[[TN, FP], [FN, TP]]` ordered by
ascending class code, and its four entries sum to the number of test rows. -/
theorem confusion_matrix_spec (yTrue yPred : List ℕ)
    (hlen : yTrue.length = yPred.length)
    (h1 : ∀ v ∈ yTrue, v < 2) (h2 : ∀ v ∈ yPred, v < 2) :
    confusion_matrix yTrue yPred =
      [[tnCount yTrue yPred, fpCount yTrue yPred],
       [fnCount yTrue yPred, tpCount yTrue yPred]] ∧
    confusionCount 0 0 yTrue yPred + confusionCount 0 1 yTrue yPred +
      confusionCount 1 0 yTrue yPred + confusionCount 1 1 yTrue yPred =
      yTrue.length := by
  constructor
  · unfold confusion_matrix
    rw [confusionCount_eq_tn yTrue yPred h1 h2, confusionCount_eq_fp yTrue yPred h1 h2,
      confusionCount_eq_fn yTrue yPred h1 h2, confusionCount_eq_tp yTrue yPred]
  · have hz : ∀ ab ∈ yTrue.zip yPred, ab.1 < 2 ∧ ab.2 < 2 := by
      intro ab hab
      obtain ⟨ha, hb⟩ := List.of_mem_zip hab
      exact ⟨h1 ab.1 ha, h2 ab.2 hb⟩
    have := fourway_countP (yTrue.zip yPred) hz
    unfold confusionCount
    rw [this, List.length_zip, hlen, Nat.min_self]

/-- Witness for C4 at concrete binary label/prediction vectors. -/
theorem confusion_matrix_spec_witness :
    ([0, 1, 1] : List ℕ).length = ([1, 1, 0] : List ℕ).length ∧
    confusion_matrix [0, 1, 1] [1, 1, 0] =
      [[tnCount [0, 1, 1] [1, 1, 0], fpCount [0, 1, 1] [1, 1, 0]],
       [fnCount [0, 1, 1] [1, 1, 0], tpCount [0, 1, 1] [1, 1, 0]]] :=
  ⟨by decide,
   (confusion_matrix_spec [0, 1, 1] [1, 1, 0] (by decide) (by decide)
     (by decide)).1⟩

/-! ## Curve lemmas -/

theorem insertDescQ_perm (x : ℚ) :
    ∀ l : List ℚ, (insertDescQ x l).Perm (x :: l)
  | [] => .refl _
  | y :: ys => by
    rw [insertDescQ]
    split
    · exact .refl _
    · exact ((insertDescQ_perm x ys).cons y).trans (List.Perm.swap x y ys)

theorem insertDescQ_pairwise (x : ℚ) (l : List ℚ)
    (h : l.Pairwise (fun a b => b ≤ a)) :
    (insertDescQ x l).Pairwise (fun a b => b ≤ a) := by
  induction l with
  | nil => simp [insertDescQ]
  | cons y ys ih =>
    rw [List.pairwise_cons] at h
    obtain ⟨hy, hys⟩ := h
    rw [insertDescQ]
    split
    · rename_i hxy
      rw [List.pairwise_cons]
      refine ⟨fun b hb => ?_, List.pairwise_cons.mpr ⟨hy, hys⟩⟩
      rcases List.mem_cons.mp hb with rfl | hb'
      · exact hxy
      · exact le_trans (hy b hb') hxy
    · rename_i hxy
      rw [List.pairwise_cons]
      refine ⟨fun b hb => ?_, ih hys⟩
      have hmem : b ∈ x :: ys := (insertDescQ_perm x ys).subset hb
      rcases List.mem_cons.mp hmem with rfl | hb'
      · exact le_of_not_le hxy
      · exact hy b hb'

theorem sortDescQ_pairwise : ∀ l : List ℚ,
    (sortDescQ l).Pairwise (fun a b => b ≤ a)
  | [] => List.Pairwise.nil
  | x :: xs => insertDescQ_pairwise x (sortDescQ xs) (sortDescQ_pairwise xs)

theorem insertAscQ_perm (x : ℚ) :
    ∀ l : List ℚ, (insertAscQ x l).Perm (x :: l)
  | [] => .refl _
  | y :: ys => by
    rw [insertAscQ]
    split
    · exact .refl _
    · exact ((insertAscQ_perm x ys).cons y).trans (List.Perm.swap x y ys)

theorem insertAscQ_pairwise (x : ℚ) (l : List ℚ)
    (h : l.Pairwise (fun a b => a ≤ b)) :
    (insertAscQ x l).Pairwise (fun a b => a ≤ b) := by
  induction l with
  | nil => simp [insertAscQ]
  | cons y ys ih =>
    rw [List.pairwise_cons] at h
    obtain ⟨hy, hys⟩ := h
    rw [insertAscQ]
    split
    · rename_i hxy
      rw [List.pairwise_cons]
      refine ⟨fun b hb => ?_, List.pairwise_cons.mpr ⟨hy, hys⟩⟩
      rcases List.mem_cons.mp hb with rfl | hb'
      · exact hxy
      · exact le_trans hxy (hy b hb')
    · rename_i hxy
      rw [List.pairwise_cons]
      refine ⟨fun b hb => ?_, ih hys⟩
      have hmem : b ∈ x :: ys := (insertAscQ_perm x ys).subset hb
      rcases List.mem_cons.mp hmem with rfl | hb'
      · exact le_of_not_le hxy
      · exact hy b hb'

theorem sortAscQ_pairwise : ∀ l : List ℚ,
    (sortAscQ l).Pairwise (fun a b => a ≤ b)
  | [] => List.Pairwise.nil
  | x :: xs => insertAscQ_pairwise x (sortAscQ xs) (sortAscQ_pairwise xs)

theorem fpAt_le_of_le (yTrue : List ℕ) (scores : List ℚ) {t t' : ℚ}
    (h : t' ≤ t) : fpAt yTrue scores t ≤ fpAt yTrue scores t' := by
  refine List.countP_mono_left (fun a _ hp => ?_)
  simp only [Bool.and_eq_true, decide_eq_true_eq] at hp ⊢
  exact ⟨hp.1, le_trans h hp.2⟩

theorem tpAt_le_of_le (yTrue : List ℕ) (scores : List ℚ) {t t' : ℚ}
    (h : t' ≤ t) : tpAt yTrue scores t ≤ tpAt yTrue scores t' := by
  refine List.countP_mono_left (fun a _ hp => ?_)
  simp only [Bool.and_eq_true, decide_eq_true_eq] at hp ⊢
  exact ⟨hp.1, le_trans h hp.2⟩

theorem fprAt_le_of_le (yTrue : List ℕ) (scores : List ℚ) {t t' : ℚ}
    (h : t' ≤ t) : fprAt yTrue scores t ≤ fprAt yTrue scores t' := by
  unfold fprAt
  rcases Nat.eq_zero_or_pos (negCount yTrue) with h0 | h0
  · rw [h0]
    simp
  · have hc : (0 : ℚ) < (negCount yTrue : ℚ) := by exact_mod_cast h0
    exact (div_le_div_iff_of_pos_right hc).mpr
      (by exact_mod_cast fpAt_le_of_le yTrue scores h)

theorem recAt_le_of_le (yTrue : List ℕ) (scores : List ℚ) {t t' : ℚ}
    (h : t' ≤ t) : recAt yTrue scores t ≤ recAt yTrue scores t' := by
  unfold recAt
  rcases Nat.eq_zero_or_pos (posCount yTrue) with h0 | h0
  · rw [h0]
    simp
  · have hc : (0 : ℚ) < (posCount yTrue : ℚ) := by exact_mod_cast h0
    exact (div_le_div_iff_of_pos_right hc).mpr
      (by exact_mod_cast tpAt_le_of_le yTrue scores h)

theorem fprAt_nonneg (yTrue : List ℕ) (scores : List ℚ) (t : ℚ) :
    0 ≤ fprAt yTrue scores t :=
  div_nonneg (Nat.cast_nonneg _) (Nat.cast_nonneg _)

theorem recAt_nonneg (yTrue : List ℕ) (scores : List ℚ) (t : ℚ) :
    0 ≤ recAt yTrue scores t :=
  div_nonneg (Nat.cast_nonneg _) (Nat.cast_nonneg _)

/-- C5: the ROC curve starts at the `threshold = +∞` point `(0, 0)`, its
false-positive-rate component is monotonically non-decreasing along the
sequence of thresholds swept from highest to lowest, and the AUC the app
reports is exactly the trapezoidal integral `np.trapz(tpr, fpr)` over that
sequence. -/
theorem roc_curve_spec (yTrue : List ℕ) (scores : List ℚ) :
    List.Chain' (fun p q : ℚ × ℚ => p.1 ≤ q.1) (roc_curve yTrue scores) ∧
    aucOf yTrue scores = trapz (roc_curve yTrue scores) := by
  refine ⟨?_, rfl⟩
  unfold roc_curve
  rw [List.chain'_cons']
  constructor
  · intro q hq
    have hq' : q ∈ (thresholdsDesc scores).map
        (fun t => (fprAt yTrue scores t, tprAt yTrue scores t)) :=
      List.mem_of_mem_head? hq
    rcases List.mem_map.mp hq' with ⟨t, _, rfl⟩
    exact fprAt_nonneg yTrue scores t
  · refine List.Pairwise.chain' (List.pairwise_map.mpr ?_)
    have hp := sortDescQ_pairwise scores.dedup
    exact hp.imp (fun hab => fprAt_le_of_le yTrue scores hab)

/-- C6 counterexample: for the single positive test row with label 1 and
score 1, the generated (recall, precision) sequence is
`[(1, 1), (0, 1)]` — its recall component falls from 1 to 0, so the
sequence is not monotonically non-decreasing in recall. -/
theorem precision_recall_curve_not_nondecreasing :
    ¬ List.Chain' (fun p q : ℚ × ℚ => p.1 ≤ q.1)
      (precision_recall_curve [1] [1]) := by
  have hth : thresholdsAsc [1] = [1] := by
    rw [thresholdsAsc, List.dedup_cons_of_not_mem (by simp), List.dedup_nil]
    rw [sortAscQ, sortAscQ, insertAscQ]
  have hrec : recAt [1] [1] 1 = 1 := by
    rw [recAt, tpAt, posCount]
    norm_num [POS_LABEL, List.countP_cons]
  intro h
  rw [precision_recall_curve, hth] at h
  simp only [List.map_cons, List.map_nil, List.cons_append,
    List.nil_append] at h
  rw [List.chain'_cons] at h
  have hle := h.1
  simp only [hrec] at hle
  norm_num at hle

/-- C6 amended: the precision-recall curve is the ordered sequence of
(recall, precision) pairs swept over all distinct score thresholds in
ascending threshold order (ending with the appended `(0, 1)` point), and its
recall component is monotonically NON-INCREASING across the generated
sequence. -/
theorem precision_recall_curve_nonincreasing (yTrue : List ℕ)
    (scores : List ℚ) :
    List.Chain' (fun p q : ℚ × ℚ => q.1 ≤ p.1)
      (precision_recall_curve yTrue scores) := by
  unfold precision_recall_curve
  refine List.Chain'.append ?_ ?_ ?_
  · refine List.Pairwise.chain' (List.pairwise_map.mpr ?_)
    have hp := sortAscQ_pairwise scores.dedup
    exact hp.imp (fun hab => recAt_le_of_le yTrue scores hab)
  · simp
  · intro x hx y hy
    simp only [List.head?_cons, Option.mem_some_iff] at hy
    subst hy
    have hx' : x ∈ (thresholdsAsc scores).map
        (fun t => (recAt yTrue scores t, precAt yTrue scores t)) :=
      List.mem_of_mem_getLast? hx
    rcases List.mem_map.mp hx' with ⟨t, _, rfl⟩
    exact recAt_nonneg yTrue scores t

/-! ## Hyperparameter validation and fitting -/

/-- C8: every hyperparameter bag is validated against the widget ranges
before model construction: an out-of-range bag fails with
`InvalidHyperparameterError` and no model is constructed, an in-range bag
constructs the model; in particular a non-positive regularization, a
max-iterations outside `[100, 500]`, a tree count outside `[100, 5000]` and
a max depth outside `[1, 20]` all fail. -/
theorem build_validates (h : Hyperparams) :
    (validHyperparams h = false →
      build h = .error .invalidHyperparameterError) ∧
    (validHyperparams h = true → build h = .ok (constructModel h)) ∧
    (∀ p : SvmParams, h = .svm p → p.C ≤ 0 →
      build h = .error .invalidHyperparameterError) ∧
    (∀ p : LrParams, h = .lr p → (p.maxIter < 100 ∨ 500 < p.maxIter) →
      build h = .error .invalidHyperparameterError) ∧
    (∀ p : RfParams, h = .rf p →
      (p.nEstimators < 100 ∨ 5000 < p.nEstimators ∨
        p.maxDepth < 1 ∨ 20 < p.maxDepth) →
      build h = .error .invalidHyperparameterError) := by
  have herr : ∀ h' : Hyperparams, validHyperparams h' = false →
      build h' = .error .invalidHyperparameterError := by
    intro h' hv
    simp [build, hv]
  refine ⟨herr h, ?_, ?_, ?_, ?_⟩
  · intro hv
    simp [build, hv]
  · rintro p rfl hC
    refine herr _ ?_
    simp only [validHyperparams, Bool.and_eq_false_iff,
      decide_eq_false_iff_not]
    refine Or.inl (Or.inl (Or.inl ?_))
    intro hle
    linarith
  · rintro p rfl hiter
    refine herr _ ?_
    simp only [validHyperparams, Bool.and_eq_false_iff,
      decide_eq_false_iff_not, Nat.not_le]
    right
    omega
  · rintro p rfl hrf
    refine herr _ ?_
    simp only [validHyperparams, Bool.and_eq_false_iff,
      decide_eq_false_iff_not, Nat.not_le]
    omega

/-- Witness for C8: a max-iterations value below 100 is rejected. -/
theorem build_validates_witness :
    build (.lr ⟨1, 50⟩) = .error .invalidHyperparameterError :=
  (build_validates (.lr ⟨1, 50⟩)).2.2.2.1 ⟨1, 50⟩ rfl (Or.inl (by norm_num))

/-- C9 counterexample: the random-forest constructor call of app.py line 126
passes no `random_state`, so the constructed model's seed is unset and the
fitted outcome depends on the environment RNG state: two fits with identical
kind, hyperparameters and training data differ across environment states. -/
theorem fit_not_unconditionally_deterministic :
    (constructModel (.rf ⟨100, 5, true⟩)).randomState = none ∧
    fitOutcome (constructModel (.rf ⟨100, 5, true⟩)) [] [] 0 ≠
      fitOutcome (constructModel (.rf ⟨100, 5, true⟩)) [] [] 1 := by
  refine ⟨rfl, ?_⟩
  intro hcontra
  have h4 := congrArg (fun r => r.2.2.2) hcontra
  simp [fitOutcome, effectiveSeed, hasInternalRandomness,
    constructModel] at h4

/-- C9 amended: fitting is deterministic as a function of (kind,
hyperparameters, training data, environment RNG state); it is deterministic
in (kind, hyperparameters, training data) alone exactly for models that
either carry a fixed `random_state` or have no internal randomness — in this
app the logistic-regression classifier, while the SVM and random-forest
constructors leave `random_state` unset. -/
theorem fit_deterministic_conditions (c : ModelConfig) (x : EncodedFrame)
    (y : List ℕ) :
    (∀ e : ℕ, fitOutcome c x y e = fitOutcome c x y e) ∧
    (∀ e1 e2 : ℕ,
      (c.randomState.isSome = true ∨ hasInternalRandomness c.params = false) →
      fitOutcome c x y e1 = fitOutcome c x y e2) ∧
    (∀ p : LrParams, ∀ e1 e2 : ℕ,
      fitOutcome (constructModel (.lr p)) x y e1 =
        fitOutcome (constructModel (.lr p)) x y e2) := by
  refine ⟨fun _ => rfl, ?_, fun p e1 e2 => rfl⟩
  intro e1 e2 hc
  rcases hc with hs | hnr
  · rcases Option.isSome_iff_exists.mp hs with ⟨s, hs'⟩
    unfold fitOutcome effectiveSeed
    rw [hs']
    simp
  · unfold fitOutcome
    rw [hnr]
    simp

/-- Witness for C9 at the logistic-regression model: no internal randomness,
so two fits under different environment states agree. -/
theorem fit_deterministic_conditions_witness :
    fitOutcome (constructModel (.lr ⟨1, 100⟩)) [] [] 0 =
      fitOutcome (constructModel (.lr ⟨1, 100⟩)) [] [] 1 :=
  (fit_deterministic_conditions (constructModel (.lr ⟨1, 100⟩)) [] []).2.1
    0 1 (Or.inr rfl)

/-- C10: the split parameters are fixed constants of the program — test
ratio `3/10`, seed `0`, label column `"type"` — and the partition `main`
uses is computed from the dataset alone, before and independently of every
user input: all classifier choices see the identical train/test partition. -/
theorem split_constants_fixed :
    TEST_SIZE = 3 / 10 ∧ RANDOM_STATE = 0 ∧ LABEL_COLUMN = "type" ∧
    (∀ df : EncodedFrame,
      (split df).trainIdx = (splitIndices 0 (3 / 10) (nRows df)).trainIdx ∧
      (split df).testIdx = (splitIndices 0 (3 / 10) (nRows df)).testIdx) ∧
    (∀ src : RawFrame, ∀ u v : UserInput,
      usedPartition src u = usedPartition src v) :=
  ⟨rfl, rfl, rfl, fun _ => ⟨rfl, rfl⟩, fun _ _ _ => rfl⟩

end MushroomApp
